import Mathlib

/-!
Verification development for the bank-statement analysis program (`src/app.py`).

The program ingests spreadsheet tables, locates description/amount columns,
extracts transacting-party identities (UPI handles, phone numbers, names) from
free-text narrations with regular expressions, and aggregates occurrence
counts per identity across files.

Shallow embedding conventions:
* Python strings are `List Char` (ASCII semantics for the character classes
  used by the program's regexes and `.lower()`).
* Spreadsheet cell values that the code passes through
  `pd.to_numeric(·, errors='coerce')` are modelled as `Option ℚ`,
  with `none` standing for NaN (the coercion result of a non-numeric cell).
* `re.findall` scanning loops are embedded as fuel-indexed structural
  recursions (fuel `= length + 1` always suffices, since every step consumes
  at least one character), so that all definitions are kernel-executable.
-/

/-- ASCII digit, the `\d` / `[0-9]` character class of the program's regexes. -/
def isDigitChar (c : Char) : Bool := 48 ≤ c.toNat && c.toNat ≤ 57

/-- ASCII letter, the `[a-zA-Z]` character class. -/
def isAlphaChar (c : Char) : Bool :=
  (97 ≤ c.toNat && c.toNat ≤ 122) || (65 ≤ c.toNat && c.toNat ≤ 90)

/-- ASCII lowercase letter, the `[a-z]` character class. -/
def isLowerChar (c : Char) : Bool := 97 ≤ c.toNat && c.toNat ≤ 122

/-- ASCII uppercase letter, the `[A-Z]` character class. -/
def isUpperChar (c : Char) : Bool := 65 ≤ c.toNat && c.toNat ≤ 90

/-- ASCII whitespace, Python's `\s` class and the characters removed
by `str.strip()`. -/
def isSpaceChar (c : Char) : Bool := c.toNat = 32 || (9 ≤ c.toNat && c.toNat ≤ 13)

/-- Word character for Python's `\b` boundary: `[A-Za-z0-9_]`. -/
def isWordChar (c : Char) : Bool := isAlphaChar c || isDigitChar c || c.toNat = 95

/-- Lowercasing of a string, Python `str.lower()` (ASCII range). -/
def lowerL (s : List Char) : List Char := s.map Char.toLower

/-- `startsW pat s`: `s` begins with `pat`. -/
def startsW : List Char → List Char → Bool
  | [], _ => true
  | _ :: _, [] => false
  | p :: ps, c :: cs => p = c && startsW ps cs

/-- `containsSeg pat s`: `pat` occurs as a contiguous substring of `s`,
Python's `pat in s` on strings. -/
def containsSeg : List Char → List Char → Bool
  | pat, [] => startsW pat []
  | pat, c :: cs => startsW pat (c :: cs) || containsSeg pat cs

/-- Generic first-match scan over a list: the shape shared by the program's
column-detection and transaction-type loops. -/
def firstWhere (p : α → Bool) : List α → Option α
  | [] => none
  | x :: xs => if p x then some x else firstWhere p xs

/-- The per-column test of `detect_column`:
`any(keyword.lower() in col.lower() for keyword in keywords)`. -/
def colMatch (keywords : List (List Char)) (col : List Char) : Bool :=
  keywords.any (fun k => containsSeg (lowerL k) (lowerL col))

/-- `detect_column(df, keywords)` (src/app.py:19-24): scan the columns in
order, return the first whose label contains any keyword case-insensitively,
else `None`. -/
def detectColumn : List (List Char) → List (List Char) → Option (List Char)
  | [], _ => none
  | c :: cols, keywords =>
    if colMatch keywords c then some c else detectColumn cols keywords

/-- The transaction-type list of `src/app.py:351`, in source order:
`TRANSACTION_TYPES = ["UPI", "Card", "Cash Withdrawal", "NEFT", "IMPS", "RTGS"]`. -/
def TRANSACTION_TYPES : List (List Char) :=
  ["UPI", "Card", "Cash Withdrawal", "NEFT", "IMPS", "RTGS"].map String.toList

/-- The per-type test of `extract_names_and_upi`'s classification loop:
`ttype.lower() in text.lower()`. -/
def ttMatch (ttype text : List Char) : Bool :=
  containsSeg (lowerL ttype) (lowerL text)

/-- The transaction-type classification loop of `extract_names_and_upi`
(src/app.py:358-362): first type in list order whose lowercase form occurs in
the lowercased narration, else `None`. -/
def firstType : List (List Char) → List Char → Option (List Char)
  | [], _ => none
  | t :: ts, text => if ttMatch t text then some t else firstType ts text

/-- Modelled from the spec: the method order the specification asserts for
claim C2, `{UPI, IMPS, NEFT, RTGS, Card, CashWithdrawal}`, to be compared
with the source's `TRANSACTION_TYPES`. -/
def SPEC_METHOD_ORDER : List (List Char) :=
  ["UPI", "IMPS", "NEFT", "RTGS", "Card", "Cash Withdrawal"].map String.toList

/-- The description-column names of `common_names` (src/app.py:392). -/
def DESC_COLS : List (List Char) :=
  ["description", "narration", "particulars", "transaction details", "remarks"].map
    String.toList

/-- The amount-column names of `common_names` (src/app.py:402). -/
def AMOUNT_COLS : List (List Char) :=
  ["amount", "deposits", "withdrawals", "dr / cr", "balance"].map String.toList

/-- The description keywords `frequency_analysis` passes to `detect_column`
(src/app.py:61). -/
def FREQ_DESC_KEYWORDS : List (List Char) :=
  ["description", "txn_desc", "narration", "particulars", "transaction details",
    "remarks"].map String.toList

/-- The per-column test of `common_names`' column lookup
(src/app.py:393, 403): `col.lower() in names` — exact membership of the
lowercased label in a fixed list, not a substring test. -/
def colExactMatch (names : List (List Char)) (col : List Char) : Bool :=
  names.contains (lowerL col)

/-- `next((col for col in df.columns if col.lower() in names), None)`
(src/app.py:393 and 403): first column whose lowercased label is exactly one
of `names`. -/
def nextColExact : List (List Char) → List (List Char) → Option (List Char)
  | [], _ => none
  | c :: cols, names =>
    if colExactMatch names c then some c else nextColExact cols names

/-- Characterization of `firstWhere`'s successful result: the returned
element is the first element of the list satisfying the predicate. -/
theorem firstWhere_some_iff (p : α → Bool) (l : List α) (x : α) :
    firstWhere p l = some x ↔
      ∃ l1 l2, l = l1 ++ x :: l2 ∧ p x = true ∧ ∀ y ∈ l1, p y = false := by
  induction l with
  | nil => simp [firstWhere]
  | cons a as ih =>
    constructor
    · intro h
      by_cases hp : p a = true
      · rw [firstWhere, if_pos hp, Option.some.injEq] at h
        exact ⟨[], as, by rw [h]; rfl, by rw [← h]; exact hp, by simp⟩
      · rw [firstWhere, if_neg hp] at h
        obtain ⟨l1, l2, hdec, hx, hall⟩ := ih.mp h
        refine ⟨a :: l1, l2, by rw [hdec]; rfl, hx, ?_⟩
        intro y hy
        rw [List.mem_cons] at hy
        rcases hy with hy | hy
        · rw [hy]; exact Bool.eq_false_iff.mpr hp
        · exact hall y hy
    · rintro ⟨l1, l2, hdec, hx, hall⟩
      cases l1 with
      | nil =>
        simp only [List.nil_append, List.cons.injEq] at hdec
        rw [firstWhere, hdec.1, if_pos hx]
      | cons b bs =>
        simp only [List.cons_append, List.cons.injEq] at hdec
        have hpa : p a = false := by rw [hdec.1]; exact hall b (by simp)
        rw [firstWhere, if_neg (by rw [hpa]; exact Bool.false_ne_true)]
        exact ih.mpr ⟨bs, l2, hdec.2, hx, fun y hy => hall y (by simp [hy])⟩

/-- Characterization of `firstWhere`'s failure: `none` exactly when no
element satisfies the predicate. -/
theorem firstWhere_none_iff (p : α → Bool) (l : List α) :
    firstWhere p l = none ↔ ∀ y ∈ l, p y = false := by
  induction l with
  | nil => simp [firstWhere]
  | cons a as ih =>
    by_cases hp : p a = true
    · rw [firstWhere, if_pos hp]
      simp only [List.mem_cons]
      constructor
      · intro h; exact absurd h (by simp)
      · intro h
        have := h a (Or.inl rfl)
        rw [hp] at this
        exact absurd this (by simp)
    · rw [firstWhere, if_neg hp, ih]
      constructor
      · intro h y hy
        rw [List.mem_cons] at hy
        rcases hy with hy | hy
        · rw [hy]; exact Bool.eq_false_iff.mpr hp
        · exact h y hy
      · intro h y hy
        exact h y (by simp [hy])

/-- `detectColumn` is `firstWhere` of its per-column test. -/
theorem detectColumn_eq (cols keywords : List (List Char)) :
    detectColumn cols keywords = firstWhere (colMatch keywords) cols := by
  induction cols with
  | nil => rfl
  | cons c cs ih => simp [detectColumn, firstWhere, ih]

/-- `firstType` is `firstWhere` of its per-type test. -/
theorem firstType_eq (ts : List (List Char)) (text : List Char) :
    firstType ts text = firstWhere (fun t => ttMatch t text) ts := by
  induction ts with
  | nil => rfl
  | cons t ts ih => simp [firstType, firstWhere, ih]

/-- `nextColExact` is `firstWhere` of its per-column test. -/
theorem nextColExact_eq (cols names : List (List Char)) :
    nextColExact cols names = firstWhere (colExactMatch names) cols := by
  induction cols with
  | nil => rfl
  | cons c cs ih => simp [nextColExact, firstWhere, ih]

/-!
### Identity extraction (`extract_names_and_upi`, src/app.py:353-367)

The UPI pattern is `(\d{10}@[a-zA-Z]+|[a-zA-Z]+@[a-zA-Z]+)`, the name pattern
is `\b[A-Z][a-z]+\s[A-Z][a-z]+\b`, both applied with `re.findall` (leftmost,
non-overlapping matches).  Each `try…` function attempts a match at the very
start of its argument and returns the matched text together with the
remaining characters; the alternation and greedy-quantifier semantics of the
Python engine are resolved statically (nothing follows a greedy `+` except a
position that no shorter expansion could ever reach, so each alternative is
deterministic).
-/

/-- The second UPI alternative `[a-zA-Z]+@[a-zA-Z]+` matched at the start of
`s` (letters are taken greedily, which is exact: `@` is not a letter). -/
def tryUpiWord (s : List Char) : Option (List Char × List Char) :=
  match s.dropWhile isAlphaChar with
  | c :: r =>
    if s.takeWhile isAlphaChar = [] then none
    else if c = '@' then
      if r.takeWhile isAlphaChar = [] then none
      else some (s.takeWhile isAlphaChar ++ '@' :: r.takeWhile isAlphaChar,
        r.dropWhile isAlphaChar)
    else none
  | [] => none

/-- The full UPI alternation `\d{10}@[a-zA-Z]+|[a-zA-Z]+@[a-zA-Z]+` matched
at the start of `s`: the digit alternative is preferred, falling back to the
word alternative. -/
def tryUpi (s : List Char) : Option (List Char × List Char) :=
  if (s.take 10).length = 10 && (s.take 10).all isDigitChar then
    match s.drop 10 with
    | c :: r =>
      if c = '@' then
        if r.takeWhile isAlphaChar = [] then tryUpiWord s
        else some (s.take 10 ++ '@' :: r.takeWhile isAlphaChar,
          r.dropWhile isAlphaChar)
      else tryUpiWord s
    | [] => tryUpiWord s
  else tryUpiWord s

/-- `re.findall` of the UPI pattern: scan left to right, at each position try
a match; on success emit it and continue after the match, otherwise advance
one character.  Fuel-indexed; every step shortens the input, so
`fuel = length + 1` suffices. -/
def scanUpiF : ℕ → List Char → List (List Char)
  | 0, _ => []
  | fuel + 1, s =>
    match tryUpi s with
    | some (m, r) => m :: scanUpiF fuel r
    | none =>
      match s with
      | [] => []
      | _ :: cs => scanUpiF fuel cs

/-- `re.findall(upi_pattern, text)` (src/app.py:364). -/
def scanUpi (s : List Char) : List (List Char) := scanUpiF (s.length + 1) s

/-- Boundary test for the leading `\b` of the name pattern: the previous
character (if any) must not be a word character. -/
def boundaryOk : Option Char → Bool
  | none => true
  | some p => !(isWordChar p)

/-- Boundary test for the trailing `\b`: the next character (if any) must not
be a word character. -/
def boundaryEndOk : List Char → Bool
  | [] => true
  | c :: _ => !(isWordChar c)

/-- The name pattern `\b[A-Z][a-z]+\s[A-Z][a-z]+\b` matched at the start of
`s`; `prev` is the character before `s` (for the leading `\b`), `none` at the
start of the narration.  The lowercase runs are taken greedily, which is
exact: a shorter run would put the following `\s` or `\b` between two word
characters. -/
def tryName (prev : Option Char) (s : List Char) : Option (List Char × List Char) :=
  if boundaryOk prev then
    match s with
    | c1 :: rest =>
      if isUpperChar c1 then
        if rest.takeWhile isLowerChar = [] then none
        else
          match rest.dropWhile isLowerChar with
          | sp :: rest2 =>
            if isSpaceChar sp then
              match rest2 with
              | c2 :: rest3 =>
                if isUpperChar c2 then
                  if rest3.takeWhile isLowerChar = [] then none
                  else if boundaryEndOk (rest3.dropWhile isLowerChar) then
                    some (c1 :: (rest.takeWhile isLowerChar ++
                        sp :: c2 :: rest3.takeWhile isLowerChar),
                      rest3.dropWhile isLowerChar)
                  else none
                else none
              | [] => none
            else none
          | [] => none
      else none
    | [] => none
  else none

/-- `re.findall` of the name pattern, tracking the previous character for the
word-boundary assertions. -/
def scanNameF : ℕ → Option Char → List Char → List (List Char)
  | 0, _, _ => []
  | fuel + 1, prev, s =>
    match tryName prev s with
    | some (m, r) => m :: scanNameF fuel m.getLast? r
    | none =>
      match s with
      | [] => []
      | c :: cs => scanNameF fuel (some c) cs

/-- `re.findall(name_pattern, text)` (src/app.py:365). -/
def scanName (prev : Option Char) (s : List Char) : List (List Char) :=
  scanNameF (s.length + 1) prev s

/-- `extract_names_and_upi(text)` (src/app.py:353-367): the transaction-type
classification together with `set(upi_matches + name_matches)`, modelled as
the deduplicated list of both scans' matches. -/
def extractNamesAndUpi (text : List Char) : Option (List Char) × List (List Char) :=
  (firstType TRANSACTION_TYPES text, (scanUpi text ++ scanName none text).dedup)

/-!
### Helper lemmas about character classes and scans
-/

/-- No character is both a digit and a letter. -/
theorem not_digit_and_alpha {c : Char} (h1 : isDigitChar c = true)
    (h2 : isAlphaChar c = true) : False := by
  simp only [isDigitChar, isAlphaChar, Bool.and_eq_true, Bool.or_eq_true,
    decide_eq_true_eq] at h1 h2
  omega

/-- The head of `dropWhile p l` (when present) fails `p`. -/
theorem head_dropWhile_false (p : α → Bool) :
    ∀ (l : List α) (c : α), (l.dropWhile p).head? = some c → p c = false := by
  intro l
  induction l with
  | nil => intro c h; simp [List.dropWhile] at h
  | cons a t ih =>
    intro c h
    by_cases hp : p a = true
    · rw [List.dropWhile_cons_of_pos hp] at h
      exact ih c h
    · rw [List.dropWhile_cons_of_neg hp] at h
      simp only [List.head?_cons, Option.some.injEq] at h
      rw [← h]
      exact Bool.eq_false_iff.mpr hp

/-- Every element of `takeWhile p l` satisfies `p`. -/
theorem all_takeWhile (p : α → Bool) (l : List α) :
    (l.takeWhile p).all p = true :=
  List.all_eq_true.mpr fun _ hx => List.mem_takeWhile_imp hx

/-- `takeWhile`/`dropWhile` on an append whose left part all satisfies `p`
and whose right part starts with a failure. -/
theorem takeWhile_dropWhile_app {p : α → Bool} {l₁ l₂ : List α}
    (h1 : l₁.all p = true) (h2 : ∀ c, l₂.head? = some c → p c = false) :
    (l₁ ++ l₂).takeWhile p = l₁ ∧ (l₁ ++ l₂).dropWhile p = l₂ := by
  induction l₁ with
  | nil =>
    simp only [List.nil_append]
    cases l₂ with
    | nil => simp [List.takeWhile, List.dropWhile]
    | cons c t =>
      have hc : p c = false := h2 c rfl
      constructor
      · rw [List.takeWhile_cons_of_neg (by simp [hc])]
      · rw [List.dropWhile_cons_of_neg (by simp [hc])]
  | cons a t ih =>
    simp only [List.all_cons, Bool.and_eq_true] at h1
    have := ih h1.2
    constructor
    · rw [List.cons_append, List.takeWhile_cons_of_pos h1.1, this.1]
    · rw [List.cons_append, List.dropWhile_cons_of_pos h1.1, this.2]

/-- Shape of a successful `tryUpiWord` match: `letters ++ '@' :: letters`,
covering exactly the consumed part of the input, with the remainder not
starting with a letter. -/
theorem tryUpiWord_shape {s m r : List Char}
    (h : tryUpiWord s = some (m, r)) :
    ∃ A B, m = A ++ '@' :: B ∧ A ≠ [] ∧ A.all isAlphaChar = true ∧
      B ≠ [] ∧ B.all isAlphaChar = true ∧ m ++ r = s ∧
      ∀ c, r.head? = some c → isAlphaChar c = false := by
  unfold tryUpiWord at h
  split at h
  case h_2 => exact absurd h (by simp)
  case h_1 c r1 hdrop =>
    by_cases ha : s.takeWhile isAlphaChar = []
    · rw [if_pos ha] at h
      exact absurd h (by simp)
    · rw [if_neg ha] at h
      by_cases hc : c = '@'
      · rw [if_pos hc] at h
        by_cases hb : r1.takeWhile isAlphaChar = []
        · rw [if_pos hb] at h
          exact absurd h (by simp)
        · rw [if_neg hb] at h
          simp only [Option.some.injEq, Prod.mk.injEq] at h
          obtain ⟨hm, hr⟩ := h
          refine ⟨s.takeWhile isAlphaChar, r1.takeWhile isAlphaChar, hm.symm,
            ha, all_takeWhile _ _, hb, all_takeWhile _ _, ?_, ?_⟩
          · rw [← hm, ← hr, List.append_assoc, List.cons_append,
              List.takeWhile_append_dropWhile, ← hc, ← hdrop,
              List.takeWhile_append_dropWhile]
          · intro c0 hc0
            rw [← hr] at hc0
            exact head_dropWhile_false _ _ c0 hc0
      · rw [if_neg hc] at h
        exact absurd h (by simp)

/-- Shape of a successful `tryUpi` match: `A ++ '@' :: B` where `A` is
either exactly ten digits or a nonempty letter run, covering exactly the
consumed part of the input, with the remainder not starting with a letter. -/
theorem tryUpi_shape {s m r : List Char}
    (h : tryUpi s = some (m, r)) :
    ∃ A B, m = A ++ '@' :: B ∧
      ((A.length = 10 ∧ A.all isDigitChar = true) ∨
        (A ≠ [] ∧ A.all isAlphaChar = true)) ∧
      B ≠ [] ∧ B.all isAlphaChar = true ∧ m ++ r = s ∧
      ∀ c, r.head? = some c → isAlphaChar c = false := by
  have word : tryUpiWord s = some (m, r) →
      ∃ A B, m = A ++ '@' :: B ∧
        ((A.length = 10 ∧ A.all isDigitChar = true) ∨
          (A ≠ [] ∧ A.all isAlphaChar = true)) ∧
        B ≠ [] ∧ B.all isAlphaChar = true ∧ m ++ r = s ∧
        ∀ c, r.head? = some c → isAlphaChar c = false := by
    intro hw
    obtain ⟨A, B, h1, h2, h3, h4, h5, h6, h7⟩ := tryUpiWord_shape hw
    exact ⟨A, B, h1, Or.inr ⟨h2, h3⟩, h4, h5, h6, h7⟩
  unfold tryUpi at h
  by_cases hguard : ((s.take 10).length = 10 && (s.take 10).all isDigitChar) = true
  · rw [if_pos hguard] at h
    simp only [Bool.and_eq_true, decide_eq_true_eq] at hguard
    split at h
    next c r1 hdrop =>
      by_cases hc : c = '@'
      · rw [if_pos hc] at h
        by_cases hb : r1.takeWhile isAlphaChar = []
        · rw [if_pos hb] at h
          exact word h
        · rw [if_neg hb] at h
          simp only [Option.some.injEq, Prod.mk.injEq] at h
          obtain ⟨hm, hr⟩ := h
          refine ⟨s.take 10, r1.takeWhile isAlphaChar, hm.symm,
            Or.inl ⟨hguard.1, hguard.2⟩, hb, all_takeWhile _ _, ?_, ?_⟩
          · rw [← hm, ← hr, List.append_assoc, List.cons_append,
              List.takeWhile_append_dropWhile, ← hc, ← hdrop,
              List.take_append_drop]
          · intro c0 hc0
            rw [← hr] at hc0
            exact head_dropWhile_false _ _ c0 hc0
      · rw [if_neg hc] at h
        exact word h
    next => exact word h
  · rw [if_neg hguard] at h
    exact word h

/-- A successful `tryUpi` match covers exactly the consumed input and is
nonempty. -/
theorem tryUpi_consumes {s m r : List Char} (h : tryUpi s = some (m, r)) :
    m ++ r = s ∧ m ≠ [] := by
  obtain ⟨A, B, hmAB, _, _, _, hmr, _⟩ := tryUpi_shape h
  refine ⟨hmr, ?_⟩
  rw [hmAB]
  intro hcon
  exact absurd (congrArg List.length hcon) (by simp)

/-- At the start of a well-delimited handle `d ++ '@' :: ls` (ten digits,
`@`, a maximal nonempty letter run), `tryUpi` matches exactly the handle. -/
theorem tryUpi_handle {d ls post : List Char} (hd : d.length = 10)
    (hdall : d.all isDigitChar = true) (hls : ls ≠ [])
    (hlsall : ls.all isAlphaChar = true)
    (hpost : ∀ c, post.head? = some c → isAlphaChar c = false) :
    tryUpi (d ++ '@' :: (ls ++ post)) = some (d ++ '@' :: ls, post) := by
  have htake : (d ++ '@' :: (ls ++ post)).take 10 = d := List.take_left' hd
  have hdrop : (d ++ '@' :: (ls ++ post)).drop 10 = '@' :: (ls ++ post) :=
    List.drop_left' hd
  have htw := (takeWhile_dropWhile_app (p := isAlphaChar) hlsall hpost).1
  have hdw := (takeWhile_dropWhile_app (p := isAlphaChar) hlsall hpost).2
  unfold tryUpi
  rw [htake, hdrop]
  simp [hd, hdall, htw, hdw, hls]

/-- Non-straddling: a `tryUpi` match launched before a ten-digit run followed
by `@` cannot end strictly inside or beyond that region — it consumes only
characters of the prefix. -/
theorem tryUpi_within {pre d X m r : List Char} (hpre : pre ≠ [])
    (hd : d.length = 10) (hdall : d.all isDigitChar = true)
    (h : tryUpi (pre ++ (d ++ '@' :: X)) = some (m, r)) :
    ∃ pre2, pre = m ++ pre2 ∧ r = pre2 ++ (d ++ '@' :: X) := by
  obtain ⟨A, B, hmAB, hAcond, hB, hBall, hmr, _⟩ := tryUpi_shape h
  have hdne : d ≠ [] := by
    intro hcon
    rw [hcon] at hd
    simp at hd
  rcases List.append_eq_append_iff.mp hmr with ⟨u, hu1, hu2⟩ | ⟨t, ht1, ht2⟩
  · exact ⟨u, hu1, hu2⟩
  · by_cases ht : t = []
    · subst ht
      rw [List.append_nil] at ht1
      refine ⟨[], by rw [ht1, List.append_nil], ?_⟩
      rw [List.nil_append]
      simpa using ht2.symm
    · exfalso
      -- the last character of the match is a letter
      have hmlast : m.getLast? = B.getLast? := by
        rw [hmAB, List.getLast?_append_cons]
        have : '@' :: B = ['@'] ++ B := rfl
        rw [this, List.getLast?_append_of_ne_nil _ hB]
      have hBlast : B.getLast? = some (B.getLast hB) :=
        List.getLast?_eq_getLast_of_ne_nil hB
      have hblalpha : isAlphaChar (B.getLast hB) = true :=
        List.all_eq_true.mp hBall _ (List.getLast_mem hB)
      have hmlast2 : m.getLast? = t.getLast? := by
        rw [ht1, List.getLast?_append_of_ne_nil _ ht]
      have htlast : t.getLast? = some (t.getLast ht) :=
        List.getLast?_eq_getLast_of_ne_nil ht
      have htl_alpha : isAlphaChar (t.getLast ht) = true := by
        have : some (t.getLast ht) = some (B.getLast hB) := by
          rw [← htlast, ← hmlast2, hmlast, hBlast]
        rw [Option.some.injEq] at this
        rw [this]
        exact hblalpha
      -- a contradiction whenever A would have to be pre ++ d
      have hAcontra : A = pre ++ d → False := by
        intro hA
        rcases hAcond with ⟨hlen, _⟩ | ⟨_, hAalpha⟩
        · rw [hA, List.length_append, hd] at hlen
          have : pre.length = 0 := by omega
          exact hpre (List.length_eq_zero.mp this)
        · have hdl : d.getLast hdne ∈ A := by
            rw [hA]
            exact List.mem_append_right pre (List.getLast_mem hdne)
          exact not_digit_and_alpha
            (List.all_eq_true.mp hdall _ (List.getLast_mem hdne))
            (List.all_eq_true.mp hAalpha _ hdl)
      rcases List.append_eq_append_iff.mp ht2.symm with ⟨u2, hu21, hu22⟩ | ⟨v, hv1, hv2⟩
      · -- t is a nonempty prefix of the digit block: its last char is a digit
        have : t.getLast ht ∈ d := by
          rw [hu21]
          exact List.mem_append_left u2 (List.getLast_mem ht)
        exact not_digit_and_alpha (List.all_eq_true.mp hdall _ this) htl_alpha
      · cases v with
        | nil =>
          rw [List.append_nil] at hv1
          have : t.getLast ht ∈ d := hv1 ▸ List.getLast_mem ht
          exact not_digit_and_alpha (List.all_eq_true.mp hdall _ this) htl_alpha
        | cons c0 w =>
          have hc0 : c0 = '@' ∧ X = w ++ r := by
            have h0 := hv2
            rw [List.cons_append] at h0
            have h12 := (List.cons.injEq _ _ _ _).mp h0
            exact ⟨h12.1.symm, h12.2⟩
          have hm2 : A ++ '@' :: B = (pre ++ d) ++ ('@' :: w) := by
            rw [← hmAB, ht1, hv1, hc0.1, List.append_assoc]
          rcases List.append_eq_append_iff.mp hm2 with ⟨u3, hu31, hu32⟩ | ⟨u3, hu31, hu32⟩
          · cases u3 with
            | nil => exact hAcontra (by rw [hu31, List.append_nil])
            | cons c3 u3' =>
              have : B = u3' ++ '@' :: w := by
                rw [List.cons_append] at hu32
                exact ((List.cons.injEq _ _ _ _).mp hu32).2
              have hatB : '@' ∈ B := by
                rw [this]
                exact List.mem_append_right u3' (List.mem_cons_self _ _)
              have := List.all_eq_true.mp hBall _ hatB
              exact absurd this (by decide)
          · cases u3 with
            | nil => exact hAcontra (by rw [hu31, List.append_nil])
            | cons c3 u3' =>
              have hc3 : c3 = '@' := by
                rw [List.cons_append] at hu32
                exact ((List.cons.injEq _ _ _ _).mp hu32).1.symm
              have hatA : '@' ∈ A := by
                rw [hu31, hc3]
                exact List.mem_append_right _ (List.mem_cons_self _ _)
              rcases hAcond with ⟨_, hdig⟩ | ⟨_, hAalpha⟩
              · exact absurd (List.all_eq_true.mp hdig _ hatA) (by decide)
              · exact absurd (List.all_eq_true.mp hAalpha _ hatA) (by decide)

/-- One unfolding step of `scanUpiF`. -/
theorem scanUpiF_succ (fuel : ℕ) (s : List Char) :
    scanUpiF (fuel + 1) s =
      match tryUpi s with
      | some (m, r) => m :: scanUpiF fuel r
      | none =>
        match s with
        | [] => []
        | _ :: cs => scanUpiF fuel cs := rfl

/-- The scan of the UPI pattern finds a well-delimited handle wherever it
occurs: induction over the fuel, using `tryUpi_handle` at the handle position
and `tryUpi_within` to show earlier matches stay inside the prefix. -/
theorem scanUpiF_handle {d ls post : List Char} (hd : d.length = 10)
    (hdall : d.all isDigitChar = true) (hls : ls ≠ [])
    (hlsall : ls.all isAlphaChar = true)
    (hpost : ∀ c, post.head? = some c → isAlphaChar c = false) :
    ∀ fuel pre, (pre ++ (d ++ '@' :: (ls ++ post))).length < fuel →
      (d ++ '@' :: ls) ∈ scanUpiF fuel (pre ++ (d ++ '@' :: (ls ++ post))) := by
  intro fuel
  induction fuel with
  | zero => intro pre hlen; omega
  | succ f ih =>
    intro pre hlen
    rw [scanUpiF_succ]
    split
    case h_1 m r htry =>
      cases pre with
      | nil =>
        rw [List.nil_append] at htry
        have hh := tryUpi_handle hd hdall hls hlsall hpost
        rw [htry] at hh
        simp only [Option.some.injEq, Prod.mk.injEq] at hh
        rw [← hh.1]
        exact List.mem_cons_self _ _
      | cons p pre' =>
        obtain ⟨pre2, hp1, hp2⟩ :=
          tryUpi_within (List.cons_ne_nil p pre') hd hdall htry
        have hcons := tryUpi_consumes htry
        have hrlen : r.length < f := by
          have := congrArg List.length hcons.1
          rw [List.length_append] at this
          have hm1 : 1 ≤ m.length := by
            cases hmn : m with
            | nil => exact absurd hmn hcons.2
            | cons a t => simp
          omega
        refine List.mem_cons_of_mem _ ?_
        rw [hp2]
        exact ih pre2 (by rw [← hp2]; exact hrlen)
    case h_2 htry =>
      split
      case h_1 heq =>
        exfalso
        have := congrArg List.length heq
        simp at this
      case h_2 c cs heq =>
        cases pre with
        | nil =>
          exfalso
          rw [List.nil_append] at htry
          rw [tryUpi_handle hd hdall hls hlsall hpost] at htry
          exact absurd htry (by simp)
        | cons p pre' =>
          rw [List.cons_append] at heq
          have h12 := (List.cons.injEq _ _ _ _).mp heq
          rw [← h12.2]
          refine ih pre' ?_
          rw [List.cons_append, List.length_cons] at hlen
          omega

/-- C3: for every narration containing a substring of ten digits immediately
followed by `@` and a (maximal) nonempty run of letters, the identity set
returned by `extract_names_and_upi` contains that handle verbatim.  The
narration is arbitrary around the handle: `pre` before it, `post` after it
(`post` must not begin with a letter, otherwise the letter run would extend
further and the handle as given would not be the matched token). -/
theorem upi_handle_in_identities (pre d ls post : List Char)
    (hd : d.length = 10) (hdall : d.all isDigitChar = true)
    (hls : ls ≠ []) (hlsall : ls.all isAlphaChar = true)
    (hpost : ∀ c, post.head? = some c → isAlphaChar c = false) :
    (d ++ '@' :: ls) ∈
      (extractNamesAndUpi (pre ++ (d ++ '@' :: (ls ++ post)))).2 := by
  unfold extractNamesAndUpi
  rw [List.mem_dedup]
  apply List.mem_append_left
  unfold scanUpi
  exact scanUpiF_handle hd hdall hls hlsall hpost _ pre (Nat.lt_succ_self _)

/-- C3 witness: the narration `"pay 9876543210@ybl now"` yields the identity
token `"9876543210@ybl"`. -/
theorem upi_handle_in_identities_witness :
    (String.toList "9876543210").length = 10 ∧
    (String.toList "9876543210").all isDigitChar = true ∧
    String.toList "ybl" ≠ [] ∧
    (String.toList "ybl").all isAlphaChar = true ∧
    (String.toList "9876543210" ++ '@' :: String.toList "ybl") ∈
      (extractNamesAndUpi (String.toList "pay " ++
        (String.toList "9876543210" ++ '@' ::
          (String.toList "ybl" ++ String.toList " now")))).2 := by
  refine ⟨by decide, by decide, by decide, by decide, ?_⟩
  apply upi_handle_in_identities
  · decide
  · decide
  · decide
  · decide
  · intro c hc
    have h0 : (String.toList " now").head? = some ' ' := by decide
    rw [h0, Option.some.injEq] at hc
    rw [← hc]
    decide

/-- Shape of a successful `tryName` match: it starts with an uppercase
letter and covers exactly the consumed input. -/
theorem tryName_shape {prev : Option Char} {s m r : List Char}
    (h : tryName prev s = some (m, r)) :
    ∃ c1 t1, m = c1 :: t1 ∧ isUpperChar c1 = true ∧ m ++ r = s := by
  unfold tryName at h
  split at h
  case isFalse => exact absurd h (by simp)
  case isTrue =>
    split at h
    case h_2 => exact absurd h (by simp)
    case h_1 c1 rest =>
      split at h
      case isFalse => exact absurd h (by simp)
      case isTrue hup =>
        split at h
        case isTrue => exact absurd h (by simp)
        case isFalse hl1 =>
          split at h
          case h_2 => exact absurd h (by simp)
          case h_1 sp rest2 heq =>
            split at h
            case isFalse => exact absurd h (by simp)
            case isTrue hsp =>
              split at h
              case h_2 => exact absurd h (by simp)
              case h_1 c2 rest3 =>
                split at h
                case isFalse => exact absurd h (by simp)
                case isTrue hup2 =>
                  split at h
                  case isTrue => exact absurd h (by simp)
                  case isFalse hl2 =>
                    split at h
                    case isFalse => exact absurd h (by simp)
                    case isTrue hend =>
                      simp only [Option.some.injEq, Prod.mk.injEq] at h
                      obtain ⟨hm, hr⟩ := h
                      refine ⟨c1, _, hm.symm, hup, ?_⟩
                      rw [← hm, ← hr, List.cons_append, List.append_assoc,
                        List.cons_append, List.cons_append,
                        List.takeWhile_append_dropWhile, ← heq,
                        List.takeWhile_append_dropWhile]

/-- One unfolding step of `scanNameF`. -/
theorem scanNameF_succ (fuel : ℕ) (prev : Option Char) (s : List Char) :
    scanNameF (fuel + 1) prev s =
      match tryName prev s with
      | some (m, r) => m :: scanNameF fuel m.getLast? r
      | none =>
        match s with
        | [] => []
        | c :: cs => scanNameF fuel (some c) cs := rfl

/-- Every match of the UPI scan contains an `@`. -/
theorem scanUpiF_mem_shape :
    ∀ (fuel : ℕ) (s m : List Char), m ∈ scanUpiF fuel s →
      ∃ A B, m = A ++ '@' :: B := by
  intro fuel
  induction fuel with
  | zero => intro s m hm; simp [scanUpiF] at hm
  | succ f ih =>
    intro s m hm
    rw [scanUpiF_succ] at hm
    split at hm
    case h_1 m' r htry =>
      rcases List.mem_cons.mp hm with h | h
      · obtain ⟨A, B, hAB, _⟩ := tryUpi_shape htry
        exact ⟨A, B, by rw [h, hAB]⟩
      · exact ih _ _ h
    case h_2 htry =>
      split at hm
      · simp at hm
      · exact ih _ _ hm

/-- Every match of the name scan starts with an uppercase letter. -/
theorem scanNameF_mem_shape :
    ∀ (fuel : ℕ) (prev : Option Char) (s m : List Char),
      m ∈ scanNameF fuel prev s →
      ∃ c1 t1, m = c1 :: t1 ∧ isUpperChar c1 = true := by
  intro fuel
  induction fuel with
  | zero => intro prev s m hm; simp [scanNameF] at hm
  | succ f ih =>
    intro prev s m hm
    rw [scanNameF_succ] at hm
    split at hm
    case h_1 m' r htry =>
      rcases List.mem_cons.mp hm with h | h
      · obtain ⟨c1, t1, hm1, hup, _⟩ := tryName_shape htry
        exact ⟨c1, t1, by rw [h, hm1], hup⟩
      · exact ih _ _ _ h
    case h_2 htry =>
      split at hm
      · simp at hm
      · exact ih _ _ _ hm

/-- Every identity token returned by `extract_names_and_upi` either contains
an `@` (UPI pattern) or starts with an uppercase letter (name pattern); in
particular it is nonempty and never consists of digits alone. -/
theorem extract_token_shape {t m : List Char}
    (hm : m ∈ (extractNamesAndUpi t).2) :
    (∃ A B, m = A ++ '@' :: B) ∨
      (∃ c1 t1, m = c1 :: t1 ∧ isUpperChar c1 = true) := by
  unfold extractNamesAndUpi at hm
  rw [List.mem_dedup, List.mem_append] at hm
  rcases hm with hm | hm
  · exact Or.inl (scanUpiF_mem_shape _ _ _ hm)
  · exact Or.inr (scanNameF_mem_shape _ _ _ _ hm)

/-!
### The common-names pipeline (`common_names`, src/app.py:369-490)

A table row carries its description cell and the amount cell after
`pd.to_numeric(·, errors='coerce')` (`none` = NaN).  `processRow` mirrors the
row loop of src/app.py:412-443: rows whose amount is NaN or `0` are skipped
before extraction; a row with a nonempty extracted identity set emits one
record per identity token (fan-out over `extracted_data`).
-/

structure Row where
  desc : List Char
  amount : Option ℚ
deriving DecidableEq

structure Record where
  name : List Char
  ttype : Option (List Char)
  amount : Option ℚ
  desc : List Char
  file : List Char
deriving DecidableEq

/-- The body of the row loop (src/app.py:412-443) for a single row. -/
def processRow (file : List Char) (row : Row) : List Record :=
  match row.amount with
  | none => []
  | some a =>
    if a = 0 then []
    else
      ((extractNamesAndUpi row.desc).2).map (fun item =>
        { name := item, ttype := (extractNamesAndUpi row.desc).1,
          amount := some a, desc := row.desc, file := file })

/-- All records of one table, in row order. -/
def processTable (file : List Char) (rows : List Row) : List Record :=
  rows.flatMap (processRow file)

/-- All records of all uploaded tables, in file order then row order —
the sequence over which `name_counts` and `transaction_details` are built. -/
def allRecords (tables : List (List Char × List Row)) : List Record :=
  tables.flatMap (fun t => processTable t.1 t.2)

/-- `name_counts` (src/app.py:376, 429): a `defaultdict(int)` incremented
once per record, modelled as a fold producing the counting function. -/
def nameCounts (records : List Record) : List Char → ℕ :=
  records.foldl (fun f r => fun n => if n = r.name then f n + 1 else f n)
    (fun _ => 0)

/-- `transaction_details` (src/app.py:377, 430): a `defaultdict(list)` with
one entry appended per record. -/
def txDetails (records : List Record) : List Char → List Record :=
  records.foldl (fun f r => fun n => if n = r.name then f n ++ [r] else f n)
    (fun _ => [])

/-- `sum(txn['Amount'] for txn in transactions if isinstance(...))`
(src/app.py:461); every stored amount is numeric, `none` (NaN) never occurs
in a stored record. -/
def sumAmounts (l : List Record) : ℚ :=
  l.foldl (fun acc r => match r.amount with | some a => acc + a | none => acc) 0

/-- The reported total amount for one identity (src/app.py:461). -/
def totalAmount (records : List Record) (n : List Char) : ℚ :=
  sumAmounts (txDetails records n)

/-- The keys of `name_counts`, in first-insertion order. -/
def keysOf (records : List Record) : List (List Char) :=
  records.foldl (fun ks r => if r.name ∈ ks then ks else ks ++ [r.name]) []

/-- `common_names_list = {name: count for ... if count > 1}`
(src/app.py:447), as its key list. -/
def commonList (records : List Record) : List (List Char) :=
  (keysOf records).filter (fun n => 1 < nameCounts records n)

/-- The outcome of aggregation (src/app.py:450-479): the empty
`common_names_empty.xlsx` report when no identity repeats, otherwise the
`common_names.xlsx` report with the common identities and frequencies. -/
inductive CommonOutcome where
  | emptyReport : CommonOutcome
  | report : List (List Char × ℕ) → CommonOutcome
deriving DecidableEq

/-- The aggregation step of `common_names` over all tables. -/
def commonOutcome (tables : List (List Char × List Row)) : CommonOutcome :=
  if commonList (allRecords tables) = [] then CommonOutcome.emptyReport
  else
    CommonOutcome.report ((commonList (allRecords tables)).map
      (fun n => (n, nameCounts (allRecords tables) n)))

/-!
### The frequency-analysis pipeline (`frequency_analysis`, src/app.py:35-138)

Its mobile/UPI pattern is `([0-9]{10}@[a-z]+|[0-9]{10})`, its name pattern is
`(?:NEFT|IMPS|RTGS).*?-([A-Za-z]+[A-Za-z ]+)-[A-Z0-9]{11}`; both are applied
with `Series.str.extract`, which returns the first match's capture group.
For the name pattern the two greedy `+` classes inside the group backtrack
against the following `-[A-Z0-9]{11}`; the net effect is the longest
alphabetic-or-space span (starting with a letter) that is followed by a dash
and eleven code characters, tried at lazily increasing dot spans.
-/

/-- `str.strip()` of the description cell (src/app.py:72). -/
def stripL (s : List Char) : List Char :=
  ((s.dropWhile isSpaceChar).reverse.dropWhile isSpaceChar).reverse

/-- The mobile/UPI alternation matched at the start of `s`: ten digits then
optionally `@` plus lowercase letters; with ten digits but no handle tail the
second alternative `[0-9]{10}` still matches. -/
def tryMobile (s : List Char) : Option (List Char) :=
  if (s.take 10).length = 10 && (s.take 10).all isDigitChar then
    match s.drop 10 with
    | c :: r =>
      if c = '@' then
        if r.takeWhile isLowerChar = [] then some (s.take 10)
        else some (s.take 10 ++ '@' :: r.takeWhile isLowerChar)
      else some (s.take 10)
    | [] => some (s.take 10)
  else none

/-- `df[desc].str.extract(r'([0-9]{10}@[a-z]+|[0-9]{10})')` (src/app.py:75):
the first match, scanning left to right. -/
def extractMobileFreq : List Char → Option (List Char)
  | [] => none
  | c :: cs =>
    match tryMobile (c :: cs) with
    | some m => some m
    | none => extractMobileFreq cs

/-- The `[A-Z0-9]` class of the reference code. -/
def isCodeChar (c : Char) : Bool := isUpperChar c || isDigitChar c

/-- The `[A-Za-z ]` class of the captured name. -/
def isAlphaSpaceChar (c : Char) : Bool := isAlphaChar c || c.toNat = 32

/-- Does a dash plus eleven code characters follow position `L` of `s`? -/
def afterDash (s : List Char) (L : ℕ) : Bool :=
  match s.drop L with
  | c :: r => c = '-' && (r.take 11).length = 11 && (r.take 11).all isCodeChar
  | [] => false

/-- Search the group span length downwards (greedy `[A-Za-z]+[A-Za-z ]+`
against the following `-[A-Z0-9]{11}`); spans must have length at least 2. -/
def findGroup : ℕ → List Char → Option (List Char)
  | 0, _ => none
  | 1, _ => none
  | L + 2, s =>
    if afterDash s (L + 2) then some (s.take (L + 2)) else findGroup (L + 1) s

/-- Attempt the captured group right after a consumed `-`: the first
character must be a letter, the span stays within the alphabetic-or-space
run. -/
def tryGroup (s : List Char) : Option (List Char) :=
  match s with
  | c0 :: _ =>
    if isAlphaChar c0 then findGroup (s.takeWhile isAlphaSpaceChar).length s
    else none
  | [] => none

/-- The lazy `.*?-` scan: at each position, if the current character is `-`,
try the group there; otherwise (or on failure) let the dot consume the
character, stopping at a newline, which `.` cannot match. -/
def dotScan : List Char → Option (List Char)
  | [] => none
  | c :: r =>
    match (if c = '-' then tryGroup r else none) with
    | some g => some g
    | none => if c = '\n' then none else dotScan r

/-- `df[desc].str.extract(r'(?:NEFT|IMPS|RTGS).*?-([A-Za-z]+[A-Za-z ]+)-[A-Z0-9]{11}')`
(src/app.py:78-80): first match, scanning start positions left to right. -/
def extractNameFreq : List Char → Option (List Char)
  | [] => none
  | c :: cs =>
    if startsW (String.toList "NEFT") (c :: cs) ||
        startsW (String.toList "IMPS") (c :: cs) ||
        startsW (String.toList "RTGS") (c :: cs) then
      match dotScan ((c :: cs).drop 4) with
      | some g => some g
      | none => extractNameFreq cs
    else extractNameFreq cs

/-- `df['Combined Key'] = names.combine_first(mobile)` (src/app.py:83): the
extracted name when present, otherwise the extracted mobile/UPI token. -/
def freqKey (d : List Char) : Option (List Char) :=
  match extractNameFreq d with
  | some n => some n
  | none => extractMobileFreq d

/-- The combined key of one row, after the `astype(str).str.strip()`
standardization (src/app.py:72). -/
def freqRowKey (row : Row) : Option (List Char) := freqKey (stripL row.desc)

/-- One table's surviving `["Combined Key", "Source File"]` data after
`dropna(subset=['Combined Key'])` (src/app.py:91-97). -/
def processFreqTable (file : List Char) (rows : List Row) :
    List (List Char × List Char) :=
  rows.filterMap (fun row => (freqRowKey row).map (fun k => (k, file)))

/-!
### Aggregation lemmas
-/

/-- The counting fold, with a generalized accumulator, counts exactly the
records carrying the queried identity. -/
theorem nameCounts_aux (X : List Char) :
    ∀ (rs : List Record) (f : List Char → ℕ),
      (rs.foldl (fun f r => fun n => if n = r.name then f n + 1 else f n) f) X =
        f X + (rs.filter (fun r => r.name = X)).length := by
  intro rs
  induction rs with
  | nil => intro f; simp
  | cons r rs ih =>
    intro f
    rw [List.foldl_cons, ih]
    by_cases hr : r.name = X
    · rw [List.filter_cons_of_pos (by simp [hr])]
      simp [hr, Nat.add_comm, Nat.add_assoc, Nat.add_left_comm]
    · rw [List.filter_cons_of_neg (by simp [hr])]
      have : (if X = r.name then f X + 1 else f X) = f X := by
        rw [if_neg (fun hc => hr hc.symm)]
      rw [this]

/-- `name_counts[X]` equals the number of records with identity `X`. -/
theorem nameCounts_eq (rs : List Record) (X : List Char) :
    nameCounts rs X = (rs.filter (fun r => r.name = X)).length := by
  unfold nameCounts
  rw [nameCounts_aux]
  exact Nat.zero_add _

/-- The details fold, with a generalized accumulator, collects exactly the
records carrying the queried identity, in order. -/
theorem txDetails_aux (X : List Char) :
    ∀ (rs : List Record) (f : List Char → List Record),
      (rs.foldl (fun f r => fun n => if n = r.name then f n ++ [r] else f n) f) X =
        f X ++ rs.filter (fun r => r.name = X) := by
  intro rs
  induction rs with
  | nil => intro f; simp
  | cons r rs ih =>
    intro f
    rw [List.foldl_cons, ih]
    by_cases hr : r.name = X
    · rw [List.filter_cons_of_pos (by simp [hr]), if_pos hr.symm,
        List.append_cons, List.append_assoc]
      simp
    · rw [List.filter_cons_of_neg (by simp [hr]), if_neg (fun hc => hr hc.symm)]

/-- `transaction_details[X]` is the sublist of records with identity `X`. -/
theorem txDetails_eq (rs : List Record) (X : List Char) :
    txDetails rs X = rs.filter (fun r => r.name = X) := by
  unfold txDetails
  rw [txDetails_aux]
  rfl

/-- The amount-summing fold with a generalized accumulator. -/
theorem sumAmounts_aux :
    ∀ (l : List Record) (acc : ℚ),
      l.foldl (fun acc r => match r.amount with
        | some a => acc + a
        | none => acc) acc =
      acc + l.foldl (fun acc r => match r.amount with
        | some a => acc + a
        | none => acc) 0 := by
  intro l
  induction l with
  | nil => intro acc; simp
  | cons r l ih =>
    intro acc
    rw [List.foldl_cons, List.foldl_cons, ih]
    cases r.amount with
    | none => ring_nf
    | some a =>
      rw [ih ((0 : ℚ) + a)]
      ring

/-- Summing amounts distributes over concatenation. -/
theorem sumAmounts_append (l1 l2 : List Record) :
    sumAmounts (l1 ++ l2) = sumAmounts l1 + sumAmounts l2 := by
  unfold sumAmounts
  rw [List.foldl_append, sumAmounts_aux]

/-!
### Claim theorems
-/

/-- C1: in the cross-file aggregation of `common_names`, the reported
occurrence count of an identity equals the number of normalized records with
that identity across all processed tables, and the reported total amount
equals the sum of those records' amounts; aggregating two record batches is
order-independent, and a batch pair in which an identity occurs once each
yields count 2 and the sum of the two batch totals. -/
theorem commonNames_aggregation :
    (∀ tables X,
      nameCounts (allRecords tables) X =
        ((allRecords tables).filter (fun r => r.name = X)).length ∧
      totalAmount (allRecords tables) X =
        sumAmounts ((allRecords tables).filter (fun r => r.name = X))) ∧
    (∀ (b1 b2 : List Record) (X : List Char),
      nameCounts (b1 ++ b2) X = nameCounts (b2 ++ b1) X ∧
      totalAmount (b1 ++ b2) X = totalAmount (b2 ++ b1) X ∧
      ((b1.filter (fun r => r.name = X)).length = 1 →
        (b2.filter (fun r => r.name = X)).length = 1 →
        nameCounts (b1 ++ b2) X = 2 ∧
        totalAmount (b1 ++ b2) X = totalAmount b1 X + totalAmount b2 X)) := by
  constructor
  · intro tables X
    exact ⟨nameCounts_eq _ _, by rw [totalAmount, txDetails_eq]⟩
  · intro b1 b2 X
    refine ⟨?_, ?_, ?_⟩
    · rw [nameCounts_eq, nameCounts_eq, List.filter_append, List.filter_append,
        List.length_append, List.length_append, Nat.add_comm]
    · rw [totalAmount, totalAmount, txDetails_eq, txDetails_eq,
        List.filter_append, List.filter_append, sumAmounts_append,
        sumAmounts_append]
      ring
    · intro h1 h2
      constructor
      · rw [nameCounts_eq, List.filter_append, List.length_append, h1, h2]
      · rw [totalAmount, totalAmount, totalAmount, txDetails_eq, txDetails_eq,
          txDetails_eq, List.filter_append, sumAmounts_append]

/-- A concrete record carrying identity `"x"` and a given amount, used by
the aggregation witness. -/
def xRecord (q : ℚ) : Record :=
  { name := String.toList "x", ttype := none, amount := some q,
    desc := [], file := [] }

/-- C1 witness: two one-record batches carrying identity `"x"` with amounts
5 and 7 aggregate to count 2 and the sum of the batch totals. -/
theorem commonNames_aggregation_witness :
    nameCounts ([xRecord 5] ++ [xRecord 7]) (String.toList "x") = 2 ∧
    totalAmount ([xRecord 5] ++ [xRecord 7]) (String.toList "x") =
      totalAmount [xRecord 5] (String.toList "x") +
        totalAmount [xRecord 7] (String.toList "x") :=
  (commonNames_aggregation.2 _ _ _).2.2 (by decide) (by decide)

/-- C2 counterexample: the narration `"IMPS Card"` contains both the `IMPS`
and the `Card` keyword; the source's classification returns `Card` (its list
is ordered `UPI, Card, Cash Withdrawal, NEFT, IMPS, RTGS`), while the order
the claim asserts (`UPI, IMPS, NEFT, RTGS, Card, CashWithdrawal`) would
return `IMPS`. -/
theorem method_order_cex :
    firstType TRANSACTION_TYPES (String.toList "IMPS Card") =
      some (String.toList "Card") ∧
    firstType SPEC_METHOD_ORDER (String.toList "IMPS Card") =
      some (String.toList "IMPS") ∧
    String.toList "Card" ≠ String.toList "IMPS" := by decide

/-- C2 (amended): the classification scans the fixed ordered list
`[UPI, Card, Cash Withdrawal, NEFT, IMPS, RTGS]` with a case-insensitive
substring test and returns the first match (or `None` when none match); with
several method keywords present, the earliest-listed one of that order
wins. -/
theorem method_first_match (text t : List Char) :
    (firstType TRANSACTION_TYPES text = some t ↔
      ∃ l1 l2, TRANSACTION_TYPES = l1 ++ t :: l2 ∧ ttMatch t text = true ∧
        ∀ x ∈ l1, ttMatch x text = false) ∧
    (firstType TRANSACTION_TYPES text = none ↔
      ∀ x ∈ TRANSACTION_TYPES, ttMatch x text = false) := by
  rw [firstType_eq]
  exact ⟨firstWhere_some_iff _ _ _, firstWhere_none_iff _ _⟩

/-- C2 witness: `"upi pay"` classifies as `UPI`, the head of the list. -/
theorem method_first_match_witness :
    firstType TRANSACTION_TYPES (String.toList "upi pay") =
      some (String.toList "UPI") :=
  ((method_first_match (String.toList "upi pay") (String.toList "UPI")).1).mpr
    ⟨[], ["Card", "Cash Withdrawal", "NEFT", "IMPS", "RTGS"].map String.toList,
      by decide, by decide, by simp⟩

/-- C4 counterexample: the narration `"paid 9876543210 now"` contains a
standalone ten-digit number, yet the identity set of
`extract_names_and_upi` is empty — its UPI pattern
`(\d{10}@[a-zA-Z]+|[a-zA-Z]+@[a-zA-Z]+)` has no standalone-number
alternative. -/
theorem standalone_digits_cex :
    (extractNamesAndUpi (String.toList "paid 9876543210 now")).2 = [] ∧
    String.toList "9876543210" ∉
      (extractNamesAndUpi (String.toList "paid 9876543210 now")).2 := by decide

/-- C4 (amended): the Identity Extractor never returns a standalone all-digit
token (every UPI-pattern match contains `@`, every name-pattern match starts
with an uppercase letter); a standalone ten-digit number is captured only by
the frequency-analysis pattern `([0-9]{10}@[a-z]+|[0-9]{10})`. -/
theorem no_standalone_digit_token :
    (∀ t m, m ∈ (extractNamesAndUpi t).2 → m.all isDigitChar = false) ∧
    extractMobileFreq (String.toList "paid 9876543210 now") =
      some (String.toList "9876543210") := by
  constructor
  · intro t m hm
    rcases extract_token_shape hm with ⟨A, B, hAB⟩ | ⟨c1, t1, hm1, hup⟩
    · rw [hAB]
      cases hall : (A ++ '@' :: B).all isDigitChar
      · rfl
      · exfalso
        have := List.all_eq_true.mp hall '@'
          (List.mem_append_right A (List.mem_cons_self _ _))
        exact absurd this (by decide)
    · rw [hm1]
      cases hall : (c1 :: t1).all isDigitChar
      · rfl
      · exfalso
        have hd := List.all_eq_true.mp hall c1 (List.mem_cons_self _ _)
        simp only [isUpperChar, isDigitChar, Bool.and_eq_true,
          decide_eq_true_eq] at hup hd
        omega
  · decide

/-- C4 witness: the extractor's token `"a@b"` is not all digits. -/
theorem no_standalone_digit_token_witness :
    (String.toList "a@b").all isDigitChar = false :=
  no_standalone_digit_token.1 (String.toList "a@b") (String.toList "a@b")
    (by decide)

/-- C5: every record emitted by the `common_names` row loop has a non-NaN,
nonzero amount and a nonempty identity; a row whose description yields an
identity but whose amount cell coerces to 0 or NaN is excluded. -/
theorem normalized_records_valid :
    (∀ file rows r, r ∈ processTable file rows →
      r.amount ≠ none ∧ r.amount ≠ some 0 ∧ r.name ≠ []) ∧
    processRow (String.toList "a.xlsx")
      ⟨String.toList "UPI 9876543210@ybl payment", some 0⟩ = [] ∧
    processRow (String.toList "a.xlsx")
      ⟨String.toList "UPI 9876543210@ybl payment", none⟩ = [] := by
  refine ⟨?_, by decide, by decide⟩
  intro file rows r hr
  rw [processTable, List.mem_flatMap] at hr
  obtain ⟨row, _, hrow⟩ := hr
  unfold processRow at hrow
  split at hrow
  · simp at hrow
  · next a hamt =>
    split at hrow
    · simp at hrow
    · next hz =>
      rw [List.mem_map] at hrow
      obtain ⟨item, hitem, heq⟩ := hrow
      have hname : r.name = item := by rw [← heq]
      have hamount : r.amount = some a := by rw [← heq]
      refine ⟨by rw [hamount]; simp, ?_, ?_⟩
      · rw [hamount]
        intro hcon
        rw [Option.some.injEq] at hcon
        exact hz hcon
      · rw [hname]
        rcases extract_token_shape hitem with ⟨A, B, hAB⟩ | ⟨c1, t1, hm1, _⟩
        · rw [hAB]
          intro hcon
          exact absurd (congrArg List.length hcon) (by simp)
        · rw [hm1]
          exact List.cons_ne_nil _ _

/-- C5 witness: a concrete emitted record satisfies the invariant. -/
theorem normalized_records_valid_witness :
    ({ name := String.toList "9876543210@ybl", ttype := some (String.toList "UPI"),
        amount := some 5, desc := String.toList "UPI 9876543210@ybl payment",
        file := String.toList "a.xlsx" } : Record).amount ≠ none ∧
    ({ name := String.toList "9876543210@ybl", ttype := some (String.toList "UPI"),
        amount := some 5, desc := String.toList "UPI 9876543210@ybl payment",
        file := String.toList "a.xlsx" } : Record).amount ≠ some 0 ∧
    ({ name := String.toList "9876543210@ybl", ttype := some (String.toList "UPI"),
        amount := some 5, desc := String.toList "UPI 9876543210@ybl payment",
        file := String.toList "a.xlsx" } : Record).name ≠ [] :=
  normalized_records_valid.1 (String.toList "a.xlsx")
    [⟨String.toList "UPI 9876543210@ybl payment", some 5⟩] _ (by decide)

/-- C6: `detect_column` scans the columns in table order and returns the
first whose label contains any keyword as a case-insensitive substring, and
`None` exactly when no column matches; being a pure function of its
arguments, the same labels and keywords always yield the same result. -/
theorem detectColumn_first_match (cols keywords : List (List Char)) (c : List Char) :
    (detectColumn cols keywords = some c ↔
      ∃ l1 l2, cols = l1 ++ c :: l2 ∧ colMatch keywords c = true ∧
        ∀ x ∈ l1, colMatch keywords x = false) ∧
    (detectColumn cols keywords = none ↔
      ∀ x ∈ cols, colMatch keywords x = false) := by
  rw [detectColumn_eq]
  exact ⟨firstWhere_some_iff _ _ _, firstWhere_none_iff _ _⟩

/-- C6 witness: with columns `["Narration", "Credit Amount"]` the description
keywords resolve to `"Narration"`. -/
theorem detectColumn_first_match_witness :
    detectColumn [String.toList "Narration", String.toList "Credit Amount"]
      FREQ_DESC_KEYWORDS = some (String.toList "Narration") :=
  ((detectColumn_first_match _ _ _).1).mpr
    ⟨[], [String.toList "Credit Amount"], by decide, by decide, by simp⟩

/-- C7 counterexample: `common_names` does not use the Column Resolver's
substring rule — a column labelled `"Transaction Description"` (or
`"Txn Amount"`) is not found by its exact-membership lookup, although
`detect_column`'s substring rule would find it. -/
theorem common_cols_cex :
    nextColExact [String.toList "Transaction Description"] DESC_COLS = none ∧
    nextColExact [String.toList "Txn Amount"] AMOUNT_COLS = none ∧
    detectColumn [String.toList "Transaction Description"] FREQ_DESC_KEYWORDS =
      some (String.toList "Transaction Description") := by decide

/-- C7 (amended): the `common_names` row normalizer locates its Description
and amount columns by scanning the columns in order and selecting the first
whose lowercased label is exactly equal to one of the configured names
(`description, narration, particulars, transaction details, remarks`
respectively `amount, deposits, withdrawals, dr / cr, balance`), not by the
Column Resolver's substring rule. -/
theorem common_cols_exact_match (cols names : List (List Char)) (c : List Char) :
    (nextColExact cols names = some c ↔
      ∃ l1 l2, cols = l1 ++ c :: l2 ∧ colExactMatch names c = true ∧
        ∀ x ∈ l1, colExactMatch names x = false) ∧
    (nextColExact cols names = none ↔
      ∀ x ∈ cols, colExactMatch names x = false) := by
  rw [nextColExact_eq]
  exact ⟨firstWhere_some_iff _ _ _, firstWhere_none_iff _ _⟩

/-- C7 witness: an exactly-named column `"Description"` is found. -/
theorem common_cols_exact_match_witness :
    nextColExact [String.toList "Description", String.toList "Amount"]
      DESC_COLS = some (String.toList "Description") :=
  ((common_cols_exact_match _ _ _).1).mpr
    ⟨[], [String.toList "Amount"], by decide, by decide, by simp⟩

/-- C8: for a narration containing no method keyword (as a case-insensitive
substring) and matched by neither identity pattern (both scans empty),
`extract_names_and_upi` returns `(None, ∅)`; the extractor is a total
function of the narration, so extraction never fails. -/
theorem extract_no_match_empty (text : List Char)
    (hmethod : ∀ t ∈ TRANSACTION_TYPES, ttMatch t text = false)
    (hupi : scanUpi text = []) (hname : scanName none text = []) :
    extractNamesAndUpi text = (none, []) := by
  unfold extractNamesAndUpi
  rw [firstType_eq, (firstWhere_none_iff _ _).mpr hmethod, hupi, hname]
  rfl

/-- C8 witness: `"zzz 123"` yields `(None, ∅)`. -/
theorem extract_no_match_empty_witness :
    extractNamesAndUpi (String.toList "zzz 123") = (none, []) :=
  extract_no_match_empty _ (by decide) (by decide) (by decide)

/-- C9: when the batch of tables produced zero records, and more generally
whenever no identity's occurrence count exceeds 1, `common_names` completes
with the empty (but valid) report rather than failing. -/
theorem commonNames_empty_result :
    (∀ tables, allRecords tables = [] →
      commonOutcome tables = CommonOutcome.emptyReport) ∧
    (∀ tables, (∀ X, nameCounts (allRecords tables) X ≤ 1) →
      commonOutcome tables = CommonOutcome.emptyReport) := by
  constructor
  · intro tables h
    unfold commonOutcome
    rw [h]
    rfl
  · intro tables h
    unfold commonOutcome
    rw [if_pos]
    rw [commonList, List.filter_eq_nil_iff]
    intro n _
    simp only [decide_eq_true_eq, Nat.not_lt]
    exact h n

/-- C9 witness: a single table whose only row has no extractable identity
produces no records, and the outcome is the empty report. -/
theorem commonNames_empty_result_witness :
    commonOutcome [(String.toList "a.xlsx",
      [⟨String.toList "random text no identifiers", some 100⟩])] =
      CommonOutcome.emptyReport :=
  commonNames_empty_result.1 _ (by decide)

/-- C10: in the frequency-analysis path every surviving row contributes
exactly one combined key — the extracted name when the name pattern matched,
otherwise the extracted mobile/UPI token — and rows where neither matched
are dropped. -/
theorem freq_single_key :
    (∀ file rows, (processFreqTable file rows).length =
      (rows.filter (fun row => (freqRowKey row).isSome)).length) ∧
    (∀ row n, extractNameFreq (stripL row.desc) = some n →
      freqRowKey row = some n) ∧
    (∀ row, extractNameFreq (stripL row.desc) = none →
      freqRowKey row = extractMobileFreq (stripL row.desc)) ∧
    (∀ file row, freqRowKey row = none → processFreqTable file [row] = []) := by
  refine ⟨?_, ?_, ?_, ?_⟩
  · intro file rows
    induction rows with
    | nil => rfl
    | cons row rows ih =>
      cases hk : freqRowKey row with
      | none =>
        rw [processFreqTable, List.filterMap_cons]
        simp only [hk, Option.map_none']
        rw [List.filter_cons_of_neg (by simp [hk])]
        exact ih
      | some k =>
        rw [processFreqTable, List.filterMap_cons]
        simp only [hk, Option.map_some']
        rw [List.filter_cons_of_pos (by simp [hk]), List.length_cons,
          List.length_cons]
        exact congrArg (fun n => n + 1) ih
  · intro row n h
    rw [freqRowKey, freqKey, h]
  · intro row h
    rw [freqRowKey, freqKey, h]
  · intro file row h
    rw [processFreqTable, List.filterMap_cons, h]
    rfl

/-- C10 witness: a description matching both the name pattern and the
mobile/UPI pattern yields only the name. -/
theorem freq_single_key_witness :
    freqRowKey ⟨String.toList "IMPS-Ramesh Kumar-AB12345678Z pay 9876543210@ybl",
        some 1⟩ =
      some (String.toList "Ramesh Kumar") :=
  freq_single_key.2.1 _ _ (by decide)
